import Mathlib

/-!
Formal model of `src/server/server.py` from the UmichStudySpaces repository.

Strings are modelled as `List Char`.  `datetime.datetime` values produced by the
code always have zero seconds and microseconds, so a datetime is modelled as a
total count of minutes: `day * 1440 + hourOfDay * 60 + minuteOfHour`, where
`day` is an abstract day index ("today" as read from the ambient clock).  The
ambient clock reads `datetime.now()` / `datetime.now().date()` are made explicit
parameters (`now`, `today`).  Browser/DOM state queried through Playwright is
modelled by a `Page` structure mapping a resource id to the query results the
code performs on it, and Python exceptions are modelled with `Except PyError`.
-/

namespace UmichStudySpaces

/-- Numeric value of a decimal digit character (callers guard with `isDigitChar`). -/
def digitVal (c : Char) : Nat := c.toNat - 48

/-- ASCII decimal digit test, matching the regex class `\d` on the inputs the code sees. -/
def isDigitChar (c : Char) : Bool := 48 ≤ c.toNat && c.toNat ≤ 57

/-- Whitespace test modelling Python's `\s` regex class and `str.strip` default
set (restricted to the ASCII whitespace characters). -/
def isSpaceChar (c : Char) : Bool :=
  c = ' ' || c = '\t' || c = '\n' || c = '\r' || c = '\x0b' || c = '\x0c'

/-- Python `str.strip()`: drop whitespace from both ends. -/
def pyStrip (s : List Char) : List Char :=
  ((s.dropWhile isSpaceChar).reverse.dropWhile isSpaceChar).reverse

/-- The literal separator `" - "` that `parse_title` splits on. -/
def sepDash : List Char := [' ', '-', ' ']

/-- Locate the leftmost occurrence of `" - "` in a string, returning the part
before it and the part after it (the scanning step of Python `str.split(" - ")`). -/
def findSep : List Char → Option (List Char × List Char)
  | [] => none
  | c :: rest =>
    if c = ' ' ∧ rest.take 2 = ['-', ' '] then some ([], rest.drop 2)
    else
      match findSep rest with
      | some (b, a) => some (c :: b, a)
      | none => none

theorem findSep_split {s b a : List Char} (h : findSep s = some (b, a)) :
    s = b ++ sepDash ++ a := by
  induction s generalizing b a with
  | nil => simp [findSep] at h
  | cons c rest ih =>
    rw [findSep] at h
    split at h
    · rename_i hc
      obtain ⟨hc1, hc2⟩ := hc
      injection h with h
      injection h with hb ha
      subst hc1
      have hrest : rest = '-' :: ' ' :: rest.drop 2 := by
        conv_lhs => rw [← List.take_append_drop 2 rest]
        rw [hc2]
        rfl
      rw [← hb, ← ha, sepDash]
      simpa using hrest
    · split at h
      · rename_i b0 a0 hrec
        injection h with h
        injection h with hb ha
        subst ha
        rw [← hb]
        simp [ih hrec, sepDash]
      · exact absurd h (by simp)

theorem findSep_length_lt {s b a : List Char} (h : findSep s = some (b, a)) :
    a.length < s.length := by
  have := congrArg List.length (findSep_split h)
  simp [sepDash] at this
  omega

/-- Fuelled worker for `pySplit`; each split consumes at least the three
separator characters, so `s.length` fuel never runs out (`findSep_length_lt`). -/
def pySplitAux (fuel : Nat) (s : List Char) : List (List Char) :=
  match fuel with
  | 0 => [s]
  | fuel + 1 =>
    match findSep s with
    | none => [s]
    | some (b, a) => b :: pySplitAux fuel a

/-- Python `title.split(" - ")` for the fixed separator `" - "`: non-overlapping
leftmost splitting; the result is never empty. -/
def pySplit (s : List Char) : List (List Char) := pySplitAux s.length s

theorem pySplitAux_sufficient (fuel fuel2 : Nat) (s : List Char)
    (h : s.length ≤ fuel) (h2 : s.length ≤ fuel2) :
    pySplitAux fuel s = pySplitAux fuel2 s := by
  induction fuel generalizing fuel2 s with
  | zero =>
    have hs : s = [] := List.length_eq_zero.mp (by omega)
    subst hs
    cases fuel2 with
    | zero => rfl
    | succ f2 => simp [pySplitAux, findSep]
  | succ f ih =>
    cases fuel2 with
    | zero =>
      have hs : s = [] := List.length_eq_zero.mp (by omega)
      subst hs
      simp [pySplitAux, findSep]
    | succ f2 =>
      rw [pySplitAux, pySplitAux]
      rcases hsep : findSep s with _ | ⟨b, a⟩
      · rfl
      · have hlt := findSep_length_lt hsep
        dsimp only
        rw [ih f2 a (by omega) (by omega)]

/-- Python `" - ".join(parts)`. -/
def pyJoin (sep : List Char) : List (List Char) → List Char
  | [] => []
  | [x] => x
  | x :: y :: xs => x ++ sep ++ pyJoin sep (y :: xs)

theorem pySplit_ne_nil (s : List Char) : pySplit s ≠ [] := by
  rw [pySplit]
  cases hl : s.length with
  | zero => simp [pySplitAux]
  | succ f =>
    rw [pySplitAux]
    split <;> simp

/-- Model of `parse_title` (`server.py`, lines 22-45).  Returns
`(time_str, status, room_name)`.  The Python indexings `parts[-1]`, `parts[-2]`
and `parts[0]` are modelled with `Option` lookups so that a potential
`IndexError` would surface as `none`. -/
def parse_title (title : List Char) : Option (List Char × List Char × List Char) :=
  let parts := (pySplit title).map pyStrip
  match parts.getLast? with
  | none => none
  | some status =>
    if parts.length > 2 then
      match parts[parts.length - 2]? with
      | none => none
      | some room_name => some (pyJoin sepDash (parts.take (parts.length - 2)), status, room_name)
    else
      match parts[0]? with
      | none => none
      | some t => some (t, status, "Unknown".data)

/-! Regex scanner for `re.findall(r"\d{1,2}:\d{2}\s*(?:am|pm)", ...)`. -/

/-- Match the tail `:\d{2}\s*(?:am|pm)` of the time-token regex at the head of
the input; on success return the matched characters and the remaining input. -/
def matchTail2 : List Char → Option (List Char × List Char)
  | c :: d1 :: d2 :: r =>
    if c = ':' ∧ isDigitChar d1 ∧ isDigitChar d2 then
      let ws := r.takeWhile isSpaceChar
      match r.dropWhile isSpaceChar with
      | 'a' :: 'm' :: r3 => some (c :: d1 :: d2 :: (ws ++ ['a', 'm']), r3)
      | 'p' :: 'm' :: r3 => some (c :: d1 :: d2 :: (ws ++ ['p', 'm']), r3)
      | _ => none
    else none
  | _ => none

/-- Match the full token regex `\d{1,2}:\d{2}\s*(?:am|pm)` at the head of the
input (greedy on the hour digits, with the regex engine's backtrack from two
digits to one); on success return the token and the remaining input. -/
def matchToken : List Char → Option (List Char × List Char)
  | c1 :: c2 :: r2 =>
    if isDigitChar c1 ∧ isDigitChar c2 then
      match matchTail2 r2 with
      | some (t, r3) => some (c1 :: c2 :: t, r3)
      | none =>
        match matchTail2 (c2 :: r2) with
        | some (t, r3) => some (c1 :: t, r3)
        | none => none
    else if isDigitChar c1 then
      match matchTail2 (c2 :: r2) with
      | some (t, r3) => some (c1 :: t, r3)
      | none => none
    else none
  | _ => none

theorem matchTail2_split {s t r : List Char} (h : matchTail2 s = some (t, r)) :
    s = t ++ r := by
  match s with
  | c :: d1 :: d2 :: rs =>
    rw [matchTail2] at h
    split at h
    · split at h <;> rename_i heq <;> first
      | (injection h with h
         injection h with ht hr
         subst ht; subst hr
         simp only [List.cons_append, List.append_assoc, List.cons.injEq, true_and]
         conv_lhs => rw [← List.takeWhile_append_dropWhile (p := isSpaceChar) (l := rs)]
         rw [heq]
         simp)
      | exact absurd h (by simp)
    · exact absurd h (by simp)
  | [] => simp [matchTail2] at h
  | [x] => simp [matchTail2] at h
  | [x, y] => simp [matchTail2] at h

theorem matchToken_split {s t r : List Char} (h : matchToken s = some (t, r)) :
    s = t ++ r ∧ t ≠ [] := by
  match s with
  | [] => simp [matchToken] at h
  | [x] => simp [matchToken] at h
  | c1 :: c2 :: r2 =>
    rw [matchToken] at h
    split at h
    · split at h
      · rename_i t0 r0 hm
        injection h with h
        injection h with ht hr
        subst hr
        have := matchTail2_split hm
        constructor
        · rw [← ht, this]; simp
        · rw [← ht]; simp
      · split at h
        · rename_i t0 r0 hm
          injection h with h
          injection h with ht hr
          subst hr
          have := matchTail2_split hm
          constructor
          · rw [← ht, this]; simp
          · rw [← ht]; simp
        · exact absurd h (by simp)
    · split at h
      · split at h
        · rename_i t0 r0 hm
          injection h with h
          injection h with ht hr
          subst hr
          have := matchTail2_split hm
          constructor
          · rw [← ht, this]; simp
          · rw [← ht]; simp
        · exact absurd h (by simp)
      · exact absurd h (by simp)

theorem matchToken_length_lt {s t r : List Char} (h : matchToken s = some (t, r)) :
    r.length < s.length := by
  obtain ⟨hsplit, hne⟩ := matchToken_split h
  have := congrArg List.length hsplit
  simp at this
  have : 0 < t.length := List.length_pos.mpr hne
  omega

/-- Fuelled worker for `findAllTimes`; each step consumes at least one input
character (`matchToken_length_lt`), so `s.length` fuel never runs out. -/
def findAllTimesAux (fuel : Nat) (s : List Char) : List (List Char) :=
  match fuel with
  | 0 => []
  | fuel + 1 =>
    match s with
    | [] => []
    | c :: rest =>
      match matchToken (c :: rest) with
      | some (t, r) => t :: findAllTimesAux fuel r
      | none => findAllTimesAux fuel rest

/-- Model of `re.findall(r"\d{1,2}:\d{2}\s*(?:am|pm)", s)`: scan left to right,
emitting non-overlapping leftmost matches. -/
def findAllTimes (s : List Char) : List (List Char) := findAllTimesAux s.length s

theorem findAllTimesAux_sufficient (fuel fuel2 : Nat) (s : List Char)
    (h : s.length ≤ fuel) (h2 : s.length ≤ fuel2) :
    findAllTimesAux fuel s = findAllTimesAux fuel2 s := by
  induction fuel generalizing fuel2 s with
  | zero =>
    have hs : s = [] := List.length_eq_zero.mp (by omega)
    subst hs
    cases fuel2 <;> simp [findAllTimesAux]
  | succ f ih =>
    cases fuel2 with
    | zero =>
      have hs : s = [] := List.length_eq_zero.mp (by omega)
      subst hs
      rfl
    | succ f2 =>
      rw [findAllTimesAux.eq_def, findAllTimesAux.eq_def (f2 + 1)]
      dsimp only
      cases s with
      | nil => rfl
      | cons c rest =>
        simp only [List.length_cons] at h h2
        dsimp only
        rcases hm : matchToken (c :: rest) with _ | ⟨t, r⟩ <;> simp only [hm]
        · exact ih f2 rest (by omega) (by omega)
        · have hlt := matchToken_length_lt hm
          simp only [List.length_cons] at hlt
          rw [ih f2 r (by omega) (by omega)]

/-! Model of `datetime.datetime.strptime(_, "%I:%M%p")`.  CPython compiles the
format to the anchored regex `(?P<I>1[0-2]|0[1-9]|[1-9]):(?P<M>[0-5]\d|\d)(?P<p>am|pm)`
(case-insensitive) and additionally requires the whole input to be consumed. -/

/-- Python exceptions that the modelled code can raise. -/
inductive PyError where
  /-- `ValueError` raised inside `datetime.strptime`, carrying the unparsable data. -/
  | strptimeError (data : List Char)
  /-- the explicit `raise ValueError(...)` of `parse_time_range`, carrying `time_str`. -/
  | valueError (label : List Char)
  /-- an out-of-range list indexing such as `parts[-1]` on an empty list. -/
  | indexError
deriving DecidableEq

/-- Match `(?P<p>am|pm)` case-insensitively against the whole remaining input
(strptime requires no unconverted data to remain); `true` means pm. -/
def parseAmPmEnd : List Char → Option Bool
  | [c1, c2] =>
    if (c1 = 'a' ∨ c1 = 'A') ∧ (c2 = 'm' ∨ c2 = 'M') then some false
    else if (c1 = 'p' ∨ c1 = 'P') ∧ (c2 = 'm' ∨ c2 = 'M') then some true
    else none
  | _ => none

/-- Match `(?P<M>[0-5]\d|\d)` followed by the meridiem and end of input,
with the regex backtrack from the two-digit to the one-digit alternative. -/
def parseMinutesAmPm : List Char → Option (Nat × Bool)
  | m1 :: m2 :: r =>
    if isDigitChar m1 ∧ isDigitChar m2 ∧ digitVal m1 ≤ 5 then
      match parseAmPmEnd r with
      | some pm => some (digitVal m1 * 10 + digitVal m2, pm)
      | none =>
        if isDigitChar m1 then (parseAmPmEnd (m2 :: r)).map fun pm => (digitVal m1, pm)
        else none
    else
      if isDigitChar m1 then (parseAmPmEnd (m2 :: r)).map fun pm => (digitVal m1, pm)
      else none
  | _ => none

/-- Combine a matched 12-hour value with the rest of the strptime regex
(`:` then minutes then meridiem), yielding the minute-of-day strptime computes:
pm maps hour 12 to 12 and hour `h` to `h+12`; am maps hour 12 to 0. -/
def hourCont (hr : Nat) : List Char → Option Nat
  | ':' :: rest =>
    (parseMinutesAmPm rest).map fun p =>
      let h24 := if p.2 then (if hr = 12 then 12 else hr + 12) else (if hr = 12 then 0 else hr)
      h24 * 60 + p.1
  | _ => none

/-- Model of `datetime.strptime(s, "%I:%M%p")`, returning the minute of day.
The hour group `1[0-2]|0[1-9]|[1-9]` is tried with the regex engine's ordered
backtracking. -/
def strptimeIMp : List Char → Option Nat
  | '1' :: rest =>
    (match rest with
     | c2 :: r2 =>
       if c2 = '0' ∨ c2 = '1' ∨ c2 = '2' then
         match hourCont (10 + digitVal c2) r2 with
         | some v => some v
         | none => hourCont 1 rest
       else hourCont 1 rest
     | [] => none)
  | '0' :: c2 :: r2 => if 49 ≤ c2.toNat ∧ c2.toNat ≤ 57 then hourCont (digitVal c2) r2 else none
  | c1 :: rest => if 50 ≤ c1.toNat ∧ c1.toNat ≤ 57 then hourCont (digitVal c1) rest else none
  | [] => none

/-- Model of the local helper `to_dt` of `parse_time_range`:
`datetime.strptime(t.strip(), "%I:%M%p").replace(year=.., month=.., day=..)`,
anchoring the parsed clock time to the current date `today` (in total minutes). -/
def to_dt (today : Nat) (t : List Char) : Except PyError Nat :=
  match strptimeIMp (pyStrip t) with
  | some m => .ok (today * 1440 + m)
  | none => .error (.strptimeError (pyStrip t))

/-- Model of `parse_time_range` (`server.py`, lines 48-84).  Returns the pair
`(start_dt, end_dt)` in total minutes, or the Python exception it raises. -/
def parse_time_range (today : Nat) (time_str : List Char) : Except PyError (Nat × Nat) :=
  let full_times := findAllTimes (time_str.map Char.toLower)
  match full_times with
  | [t] =>
    match to_dt today t with
    | .ok start_dt => .ok (start_dt, start_dt + 60)
    | .error e => .error e
  | t1 :: t2 :: _ =>
    (match to_dt today t1 with
     | .ok start_dt =>
       match to_dt today t2 with
       | .ok end_dt => .ok (start_dt, if end_dt ≤ start_dt then end_dt + 1440 else end_dt)
       | .error e => .error e
     | .error e => .error e)
  | [] => .error (.valueError time_str)

/-! Model of the Playwright scraping layer (`fetch_single_eid`, `fetch_all`)
and of the `/api/run_fetch` route handler. -/

/-- An `a[title]` event node inside a resource's timeline lane; `title` models
`await e.get_attribute("title")`, which can be `None`. -/
structure EventNode where
  title : Option (List Char)
deriving DecidableEq

/-- The rendered page, as seen through the selector queries the code performs:
`queryLane eid` models `page.query_selector` for the timeline lane of `eid`
together with the `query_selector_all(".fc-timeline-event-harness a[title]")`
on it, and `queryName eid` models the datagrid-cell `.fc-cell-text` lookup
(`inner_text` of the name element, when present). -/
structure Page where
  queryLane : List Char → Option (List EventNode)
  queryName : List Char → Option (List Char)

/-- One record of the published result collection. -/
structure Record where
  eid : List Char
  Name : List Char
  time : List Char
  status : List Char
deriving DecidableEq

/-- Room name text used by `fetch_single_eid`:
`await name_elem.inner_text() if name_elem else "Unknown"`. -/
def roomOf (page : Page) (eid : List Char) : List Char :=
  match page.queryName eid with
  | some txt => txt
  | none => "Unknown".data

/-- The `for e in events:` loop body of `fetch_single_eid`: skip nodes whose
title is `None` or empty, parse the title, drop events starting before `now`,
and append a record for the rest.  Any exception aborts the whole loop. -/
def eventsLoop (eid room : List Char) (now today : Nat) :
    List EventNode → Except PyError (List Record)
  | [] => .ok []
  | ev :: rest =>
    match ev.title with
    | none => eventsLoop eid room now today rest
    | some t =>
      if t = [] then eventsLoop eid room now today rest
      else
        match parse_title t with
        | none => .error .indexError
        | some (time_str, status_str, _) =>
          match parse_time_range today time_str with
          | .error e => .error e
          | .ok (start_time, _) =>
            if start_time < now then eventsLoop eid room now today rest
            else
              match eventsLoop eid room now today rest with
              | .ok rs => .ok (⟨eid, room, time_str, status_str⟩ :: rs)
              | .error e => .error e

/-- Model of `fetch_single_eid` (`server.py`, lines 91-131): a missing lane
cell yields an empty result; otherwise the events of the lane are processed. -/
def fetch_single_eid (page : Page) (now today : Nat) (eid : List Char) :
    Except PyError (List Record) :=
  match page.queryLane eid with
  | none => .ok []
  | some evs => eventsLoop eid (roomOf page eid) now today evs

/-- Model of the sequential per-eid loop of `fetch_all`: results are
concatenated in order, and an exception from any eid aborts the whole batch. -/
def fetch_all (page : Page) (now today : Nat) :
    List (List Char) → Except PyError (List Record)
  | [] => .ok []
  | eid :: rest =>
    match fetch_single_eid page now today eid with
    | .error e => .error e
    | .ok d =>
      match fetch_all page now today rest with
      | .ok ds => .ok (d ++ ds)
      | .error e => .error e

/-- The JSON body returned by the `/api/run_fetch` handler (both shapes are
sent with HTTP status 200). -/
inductive RunFetchResponse where
  | success (count : Nat)
  | error (e : PyError)
deriving DecidableEq

/-- Model of the `run_fetch` route handler (`server.py`, lines 176-188): run the
scrape; on success overwrite the saved `record.json` (modelled as the second
component of the state, `save_json` being a whole-file overwrite) and report the
record count; on any exception report it and leave the saved file untouched. -/
def run_fetch (page : Page) (now today : Nat) (eids : List (List Char))
    (saved : Option (List Record)) : RunFetchResponse × Option (List Record) :=
  match fetch_all page now today eids with
  | .ok data => (.success data.length, some data)
  | .error e => (.error e, saved)

/-! Helper lemmas: a successfully strptime-parsed clock value is a valid minute
of day, so `to_dt` anchors it inside the current date. -/

theorem digitVal_le_of_isDigit {c : Char} (h : isDigitChar c = true) : digitVal c ≤ 9 := by
  simp only [isDigitChar, Bool.and_eq_true, decide_eq_true_eq] at h
  simp only [digitVal]
  omega

theorem parseMinutesAmPm_le {s : List Char} {m : Nat} {pm : Bool}
    (h : parseMinutesAmPm s = some (m, pm)) : m ≤ 59 := by
  match s with
  | [] => simp [parseMinutesAmPm] at h
  | [x] => simp [parseMinutesAmPm] at h
  | m1 :: m2 :: r =>
    rw [parseMinutesAmPm] at h
    split at h
    · rename_i hg
      obtain ⟨hd1, hd2, hle5⟩ := hg
      split at h
      · injection h with h
        injection h with hm _
        have h2 := digitVal_le_of_isDigit hd2
        omega
      · rw [if_pos hd1] at h
        rcases hmap : parseAmPmEnd (m2 :: r) with _ | pm2 <;> rw [hmap] at h
        · rw [Option.map_none'] at h
          exact absurd h (by simp)
        · rw [Option.map_some'] at h
          injection h with h
          injection h with hm _
          have h1 := digitVal_le_of_isDigit hd1
          omega
    · split at h
      · rename_i hd1
        rcases hmap : parseAmPmEnd (m2 :: r) with _ | pm2 <;> rw [hmap] at h
        · rw [Option.map_none'] at h
          exact absurd h (by simp)
        · rw [Option.map_some'] at h
          injection h with h
          injection h with hm _
          have h1 := digitVal_le_of_isDigit hd1
          omega
      · exact absurd h (by simp)

theorem hourCont_lt {hr v : Nat} {s : List Char} (hhr1 : 1 ≤ hr) (hhr2 : hr ≤ 12)
    (h : hourCont hr s = some v) : v < 1440 := by
  rw [hourCont.eq_def] at h
  split at h
  · rename_i rest
    rcases hP : parseMinutesAmPm rest with _ | ⟨m, pm⟩ <;> rw [hP] at h
    · rw [Option.map_none'] at h
      exact absurd h (by simp)
    · rw [Option.map_some'] at h
      injection h with h
      have hm := parseMinutesAmPm_le hP
      dsimp only at h
      split at h <;> split at h <;> (try rw [Nat.add_mul] at h) <;> omega
  · exact absurd h (by simp)

theorem strptimeIMp_lt {s : List Char} {v : Nat} (h : strptimeIMp s = some v) : v < 1440 := by
  rw [strptimeIMp.eq_def] at h
  split at h
  · split at h
    · split at h
      · rename_i hc2
        rename_i c2 r2
        have hd : digitVal c2 ≤ 2 := by
          rcases hc2 with h2 | h2 | h2 <;> subst h2 <;> decide
        split at h
        · rename_i v0 heq
          injection h with h
          subst h
          exact hourCont_lt (by omega) (by omega) heq
        · exact hourCont_lt (by omega) (by omega) h
      · exact hourCont_lt (by omega) (by omega) h
    · exact absurd h (by simp)
  · split at h
    · rename_i hc2
      refine hourCont_lt ?_ ?_ h <;> simp only [digitVal] <;> omega
    · exact absurd h (by simp)
  · split at h
    · rename_i hc1
      refine hourCont_lt ?_ ?_ h <;> simp only [digitVal] <;> omega
    · exact absurd h (by simp)
  · exact absurd h (by simp)

theorem to_dt_ok_bounds {today : Nat} {t : List Char} {m : Nat}
    (h : to_dt today t = .ok m) : today * 1440 ≤ m ∧ m < today * 1440 + 1440 := by
  rw [to_dt] at h
  split at h
  · rename_i v hv
    injection h with h
    have := strptimeIMp_lt hv
    omega
  · exact absurd h (by simp)

theorem to_dt_ok_day {today : Nat} {t : List Char} {m : Nat}
    (h : to_dt today t = .ok m) : m / 1440 = today := by
  obtain ⟨h1, h2⟩ := to_dt_ok_bounds h
  omega

theorem to_dt_error_shape {today : Nat} {t : List Char} {e : PyError}
    (h : to_dt today t = .error e) : e = .strptimeError (pyStrip t) := by
  rw [to_dt] at h
  split at h
  · exact absurd h (by simp)
  · injection h with h
    exact h.symm

/-! Helper lemmas about the event loop of `fetch_single_eid`. -/

theorem eventsLoop_sound {eid room : List Char} {now today : Nat}
    {evs : List EventNode} {results : List Record}
    (hok : eventsLoop eid room now today evs = .ok results) :
    ∀ r ∈ results, r.eid = eid ∧ r.Name = room ∧
      (∃ st en, parse_time_range today r.time = .ok (st, en) ∧ now ≤ st) ∧
      ∃ ev ∈ evs, ∃ t, ev.title = some t ∧
        ∃ rn, parse_title t = some (r.time, r.status, rn) := by
  induction evs generalizing results with
  | nil =>
    rw [eventsLoop] at hok
    injection hok with hok
    subst hok
    intro r hr
    simp at hr
  | cons ev rest ih =>
    rw [eventsLoop] at hok
    rcases ht : ev.title with _ | t
    · simp only [ht] at hok
      intro r hr
      obtain ⟨h1, h2, h3, ev2, hev2, hrest2⟩ := ih hok r hr
      exact ⟨h1, h2, h3, ev2, List.mem_cons_of_mem ev hev2, hrest2⟩
    · simp only [ht] at hok
      by_cases htne : t = []
      · rw [if_pos htne] at hok
        intro r hr
        obtain ⟨h1, h2, h3, ev2, hev2, hrest2⟩ := ih hok r hr
        exact ⟨h1, h2, h3, ev2, List.mem_cons_of_mem ev hev2, hrest2⟩
      · rw [if_neg htne] at hok
        rcases hpt : parse_title t with _ | ⟨tl, st0, rn⟩
        · simp only [hpt] at hok
          exact absurd hok (by simp)
        · simp only [hpt] at hok
          rcases hpr : parse_time_range today tl with e | ⟨s0, e0⟩
          · simp only [hpr] at hok
            exact absurd hok (by simp)
          · simp only [hpr] at hok
            by_cases hlt : s0 < now
            · rw [if_pos hlt] at hok
              intro r hr
              obtain ⟨h1, h2, h3, ev2, hev2, hrest2⟩ := ih hok r hr
              exact ⟨h1, h2, h3, ev2, List.mem_cons_of_mem ev hev2, hrest2⟩
            · rw [if_neg hlt] at hok
              rcases hrs : eventsLoop eid room now today rest with e | rs
              · simp only [hrs] at hok
                exact absurd hok (by simp)
              · simp only [hrs] at hok
                injection hok with hok
                subst hok
                intro r hr
                rcases List.mem_cons.mp hr with heq | hmem
                · subst heq
                  exact ⟨rfl, rfl, ⟨s0, e0, hpr, by omega⟩,
                    ev, List.mem_cons_self ev rest, t, ht, rn, hpt⟩
                · obtain ⟨h1, h2, h3, ev2, hev2, hrest2⟩ := ih hrs r hmem
                  exact ⟨h1, h2, h3, ev2, List.mem_cons_of_mem ev hev2, hrest2⟩

theorem eventsLoop_complete {eid room : List Char} {now today : Nat}
    {evs : List EventNode} {results : List Record} {ev : EventNode}
    {t tl st0 rn : List Char} {s0 e0 : Nat}
    (hok : eventsLoop eid room now today evs = .ok results)
    (hev : ev ∈ evs) (ht : ev.title = some t) (htne : t ≠ [])
    (hpt : parse_title t = some (tl, st0, rn))
    (hpr : parse_time_range today tl = .ok (s0, e0))
    (hge : ¬ s0 < now) :
    (⟨eid, room, tl, st0⟩ : Record) ∈ results := by
  induction evs generalizing results with
  | nil => simp at hev
  | cons ev2 rest ih =>
    rw [eventsLoop] at hok
    rcases List.mem_cons.mp hev with heq | hmem
    · subst heq
      simp only [ht] at hok
      rw [if_neg htne] at hok
      simp only [hpt, hpr] at hok
      rw [if_neg hge] at hok
      split at hok
      · rename_i rs hrs
        injection hok with hok
        subst hok
        exact List.mem_cons_self _ _
      · exact absurd hok (by simp)
    · rcases ht2 : ev2.title with _ | t2
      · simp only [ht2] at hok
        exact ih hok hmem
      · simp only [ht2] at hok
        by_cases htne2 : t2 = []
        · rw [if_pos htne2] at hok
          exact ih hok hmem
        · rw [if_neg htne2] at hok
          rcases hpt2 : parse_title t2 with _ | ⟨tl2, st2, rn2⟩
          · simp only [hpt2] at hok
            exact absurd hok (by simp)
          · simp only [hpt2] at hok
            rcases hpr2 : parse_time_range today tl2 with e2x | ⟨s2, e2⟩
            · simp only [hpr2] at hok
              exact absurd hok (by simp)
            · simp only [hpr2] at hok
              by_cases hlt2 : s2 < now
              · rw [if_pos hlt2] at hok
                exact ih hok hmem
              · rw [if_neg hlt2] at hok
                rcases hrs : eventsLoop eid room now today rest with e3 | rs
                · simp only [hrs] at hok
                  exact absurd hok (by simp)
                · simp only [hrs] at hok
                  injection hok with hok
                  subst hok
                  exact List.mem_cons_of_mem _ (ih hrs hmem)

/-! Claim theorems. -/

/-- C1 (amended): for every input string in which exactly one 12-hour clock
token is found and that token parses under the strict `%I:%M%p` format (hour
1-12, minutes 00-59, no whitespace before the meridiem — the `to_dt` success
hypothesis), `parse_time_range` returns a pair `(start, end)` where `start` is
the parsed token anchored to the current calendar date (`start / 1440 = today`)
and `end = start + 60` minutes. -/
theorem parse_time_range_single_token {today : Nat} {s t : List Char} {m : Nat}
    (hfind : findAllTimes (s.map Char.toLower) = [t])
    (hdt : to_dt today t = .ok m) :
    parse_time_range today s = .ok (m, m + 60) ∧ m / 1440 = today := by
  constructor
  · rw [parse_time_range, hfind]
    dsimp only
    rw [hdt]
  · exact to_dt_ok_day hdt

/-- C1 witness: the spec's single-token example, run on day index 5. -/
theorem parse_time_range_single_token_witness :
    parse_time_range 5 "8:00am Wednesday, November 26, 2025 - 2nd Floor - 2122".data =
        .ok (7680, 7680 + 60) ∧ 7680 / 1440 = 5 :=
  @parse_time_range_single_token 5
    ("8:00am Wednesday, November 26, 2025 - 2nd Floor - 2122".data)
    ("8:00am".data) 7680 (by rfl) (by rfl)

/-- C1 counterexample: the input "0:30am" contains exactly one 12-hour clock
token (the findall regex admits hour 0), yet `parse_time_range` raises the
strptime `ValueError` instead of returning a pair, because `%I` rejects hour 0. -/
theorem parse_time_range_single_token_cex :
    (findAllTimes ("0:30am".data.map Char.toLower)).length = 1 ∧
      parse_time_range 0 "0:30am".data = .error (.strptimeError "0:30am".data) := by
  exact ⟨by rfl, by rfl⟩

/-- C2 (amended): for every input string in which two or more 12-hour clock
tokens are found and the first two parse under the strict `%I:%M%p` format,
`parse_time_range` parses the first token as `start` and the second as `end`,
ignoring all further tokens; if the same-day interpretation gives `end ≤ start`
the returned `end` is advanced by exactly one calendar day and then falls on
the day after `start`. -/
theorem parse_time_range_two_tokens {today : Nat} {s t1 t2 : List Char}
    {rest : List (List Char)} {m1 m2 : Nat}
    (hfind : findAllTimes (s.map Char.toLower) = t1 :: t2 :: rest)
    (h1 : to_dt today t1 = .ok m1) (h2 : to_dt today t2 = .ok m2) :
    parse_time_range today s = .ok (m1, if m2 ≤ m1 then m2 + 1440 else m2) ∧
      (m2 ≤ m1 → (m2 + 1440) / 1440 = m1 / 1440 + 1) := by
  constructor
  · rw [parse_time_range, hfind]
    dsimp only
    rw [h1, h2]
  · intro hle
    rw [Nat.add_div_right _ (by norm_num), to_dt_ok_day h1, to_dt_ok_day h2]

/-- C2 witness: the spec's overnight example `11:00pm - 1:00am` on day 0:
start is 23:00, the raw end 1:00 is at or before start, so the returned end is
1:00 of the next day. -/
theorem parse_time_range_two_tokens_witness :
    parse_time_range 0 "11:00pm - 1:00am".data =
        .ok (1380, if 60 ≤ 1380 then 60 + 1440 else 60) ∧
      (60 ≤ 1380 → (60 + 1440) / 1440 = 1380 / 1440 + 1) :=
  @parse_time_range_two_tokens 0 ("11:00pm - 1:00am".data) ("11:00pm".data)
    ("1:00am".data) [] 1380 60 (by rfl) (by rfl) (by rfl)

/-- C2 counterexample: "1:99pm - 2:00pm" contains two 12-hour clock tokens by
the findall regex (minutes 99 pass `\d{2}`), yet `parse_time_range` raises the
strptime `ValueError` on the first token instead of returning a pair. -/
theorem parse_time_range_two_tokens_cex :
    (findAllTimes ("1:99pm - 2:00pm".data.map Char.toLower)).length = 2 ∧
      parse_time_range 0 "1:99pm - 2:00pm".data =
        .error (.strptimeError "1:99pm".data) := by
  exact ⟨by rfl, by rfl⟩

/-- C3 (amended): `parse_time_range` fails with the `ValueError` that carries
the whole offending time label exactly when zero 12-hour clock tokens are found;
with at least one token it succeeds if and only if the token it uses (the single
token, or the first two) all parse under the strict `%I:%M%p` format — a used
token that the findall regex admits but strptime rejects makes it fail with a
strptime error carrying that token instead. -/
theorem parse_time_range_error_conditions (today : Nat) (s : List Char) :
    (parse_time_range today s = .error (.valueError s) ↔
      findAllTimes (s.map Char.toLower) = []) ∧
    ((∃ p, parse_time_range today s = .ok p) ↔
      (match findAllTimes (s.map Char.toLower) with
       | [] => False
       | [t] => ∃ m, to_dt today t = .ok m
       | t1 :: t2 :: _ => (∃ m, to_dt today t1 = .ok m) ∧ ∃ m, to_dt today t2 = .ok m)) := by
  rcases hf : findAllTimes (s.map Char.toLower) with _ | ⟨t1, ts⟩
  · constructor
    · rw [parse_time_range, hf]
      simp
    · rw [parse_time_range, hf]
      simp
  · rcases ts with _ | ⟨t2, rest⟩
    · rw [parse_time_range, hf]
      dsimp only
      rcases hd : to_dt today t1 with e | m
      · simp [hd, to_dt_error_shape hd]
      · simp [hd]
    · rw [parse_time_range, hf]
      dsimp only
      rcases hd1 : to_dt today t1 with e1 | m1
      · rcases hd2 : to_dt today t2 with e2 | m2
        · simp [hd1, hd2, to_dt_error_shape hd1]
        · simp [hd1, hd2, to_dt_error_shape hd1]
      · rcases hd2 : to_dt today t2 with e2 | m2
        · simp [hd1, hd2, to_dt_error_shape hd2]
        · simp [hd1, hd2]

/-- C3 counterexample: in "8:00 am" the findall regex (whose `\s*` admits a
space before the meridiem) finds exactly one token, so by the claim the parse
should succeed; instead strptime rejects the internal space and
`parse_time_range` fails even though a token was found — and the error carries
the token, not the whole time label. -/
theorem parse_time_range_error_conditions_cex :
    findAllTimes ("8:00 am".data.map Char.toLower) = ["8:00 am".data] ∧
      parse_time_range 0 "8:00 am".data = .error (.strptimeError "8:00 am".data) := by
  exact ⟨by rfl, by rfl⟩

/-- C9: whenever `parse_time_range` returns successfully, the returned pair
satisfies `start < end` strictly and `end - start ≤ 1440` minutes (24 hours);
moreover in the single-token case `end = start + 60` minutes exactly. -/
theorem parse_time_range_ok_invariant {today : Nat} {s : List Char} {a b : Nat}
    (h : parse_time_range today s = .ok (a, b)) :
    a < b ∧ b - a ≤ 1440 ∧
      ((findAllTimes (s.map Char.toLower)).length = 1 → b = a + 60) := by
  rcases hf : findAllTimes (s.map Char.toLower) with _ | ⟨t1, ts⟩
  · rw [parse_time_range, hf] at h
    simp at h
  · rcases ts with _ | ⟨t2, rest⟩
    · rw [parse_time_range, hf] at h
      dsimp only at h
      rcases hd : to_dt today t1 with e | m <;> rw [hd] at h
      · exact absurd h (by simp)
      · injection h with h
        injection h with ha hb
        subst ha
        subst hb
        refine ⟨by omega, by omega, fun _ => rfl⟩
    · rw [parse_time_range, hf] at h
      dsimp only at h
      rcases hd1 : to_dt today t1 with e1 | m1 <;> rw [hd1] at h
      · exact absurd h (by simp)
      · rcases hd2 : to_dt today t2 with e2 | m2 <;> rw [hd2] at h
        · exact absurd h (by simp)
        · injection h with h
          injection h with ha hb
          subst ha
          have b1 := to_dt_ok_bounds hd1
          have b2 := to_dt_ok_bounds hd2
          refine ⟨?_, ?_, ?_⟩
          · split at hb <;> omega
          · split at hb <;> omega
          · simp

/-- C4: for every title string, `parse_title` splits on the literal separator
`" - "` (with each segment stripped, as the code does before using it): the last
segment is the returned status; with more than two segments the returned room
name is exactly the second-to-last segment and the returned time label is all
preceding segments rejoined with `" - "`; with two or fewer segments the room
name is the sentinel `"Unknown"` and the time label is the first segment. -/
theorem parse_title_contract (title : List Char) :
    ∃ tl st rn, parse_title title = some (tl, st, rn) ∧
      ((pySplit title).map pyStrip).getLast? = some st ∧
      (((pySplit title).map pyStrip).length > 2 →
        ((pySplit title).map pyStrip)[((pySplit title).map pyStrip).length - 2]? = some rn ∧
        tl = pyJoin sepDash
          (((pySplit title).map pyStrip).take (((pySplit title).map pyStrip).length - 2))) ∧
      (((pySplit title).map pyStrip).length ≤ 2 →
        rn = "Unknown".data ∧ ((pySplit title).map pyStrip)[0]? = some tl) := by
  have hne : (pySplit title).map pyStrip ≠ [] := by
    intro hc
    exact pySplit_ne_nil title (List.map_eq_nil.mp hc)
  obtain ⟨st, hlast⟩ := Option.isSome_iff_exists.mp (List.getLast?_isSome.mpr hne)
  by_cases hlen : ((pySplit title).map pyStrip).length > 2
  · obtain ⟨rn, hrn⟩ : ∃ rn,
        ((pySplit title).map pyStrip)[((pySplit title).map pyStrip).length - 2]? = some rn :=
      ⟨_, List.getElem?_eq_getElem (by omega)⟩
    refine ⟨_, st, rn, ?_, hlast, fun _ => ⟨hrn, rfl⟩, fun hc => absurd hlen (by omega)⟩
    rw [parse_title]
    dsimp only
    rw [hlast]
    dsimp only
    rw [if_pos hlen, hrn]
  · push_neg at hlen
    have h0 : 0 < ((pySplit title).map pyStrip).length :=
      List.length_pos.mpr hne
    obtain ⟨t0, ht0⟩ : ∃ t0, ((pySplit title).map pyStrip)[0]? = some t0 :=
      ⟨_, List.getElem?_eq_getElem h0⟩
    refine ⟨t0, st, "Unknown".data, ?_, hlast, fun hc => absurd hc (by omega),
      fun _ => ⟨rfl, ht0⟩⟩
    rw [parse_title]
    dsimp only
    rw [hlast]
    dsimp only
    rw [if_neg (by omega), ht0]

/-- C5: `parse_title` is total — for every input string, including the empty
one, none of its list indexings can fail and it returns a triple. -/
theorem parse_title_total (title : List Char) : (parse_title title).isSome := by
  have hne : (pySplit title).map pyStrip ≠ [] := by
    intro hc
    exact pySplit_ne_nil title (List.map_eq_nil.mp hc)
  obtain ⟨st, hlast⟩ := Option.isSome_iff_exists.mp (List.getLast?_isSome.mpr hne)
  rw [parse_title]
  dsimp only
  rw [hlast]
  dsimp only
  by_cases hlen : ((pySplit title).map pyStrip).length > 2
  · rw [if_pos hlen]
    obtain ⟨rn, hrn⟩ : ∃ rn,
        ((pySplit title).map pyStrip)[((pySplit title).map pyStrip).length - 2]? = some rn :=
      ⟨_, List.getElem?_eq_getElem (by omega)⟩
    rw [hrn]
    rfl
  · rw [if_neg hlen]
    obtain ⟨t0, ht0⟩ : ∃ t0, ((pySplit title).map pyStrip)[0]? = some t0 :=
      ⟨_, List.getElem?_eq_getElem (List.length_pos.mpr hne)⟩
    rw [ht0]
    rfl

/-- C9 witness: the spec's plain range example `1:00pm - 2:00pm`. -/
theorem parse_time_range_ok_invariant_witness :
    780 < 840 ∧ 840 - 780 ≤ 1440 ∧
      ((findAllTimes ("1:00pm - 2:00pm".data.map Char.toLower)).length = 1 →
        840 = 780 + 60) :=
  @parse_time_range_ok_invariant 0 ("1:00pm - 2:00pm".data) 780 840 (by rfl)

/-- C6: when a scrape of one resource succeeds, a scraped event is included in
its output only if its resolved start is not earlier than the scrape instant:
every included record parses to a start at or after `now`, so a past event's
record is dropped entirely (first conjunct plus determinism of the parse), and
every event whose resolved start is at or after `now` is present as a record
with all four fields (`eid`, `Name`, `time`, `status`) populated. -/
theorem fetch_single_eid_past_filter {page : Page} {now today : Nat}
    {eid : List Char} {evs : List EventNode} {results : List Record}
    (hlane : page.queryLane eid = some evs)
    (hok : fetch_single_eid page now today eid = .ok results) :
    (∀ r ∈ results, r.eid = eid ∧ r.Name = roomOf page eid ∧
       ∃ st en, parse_time_range today r.time = .ok (st, en) ∧ now ≤ st) ∧
    (∀ ev ∈ evs, ∀ t tl st0 rn s0 e0,
       ev.title = some t → t ≠ [] →
       parse_title t = some (tl, st0, rn) →
       parse_time_range today tl = .ok (s0, e0) →
       ((s0 < now → (⟨eid, roomOf page eid, tl, st0⟩ : Record) ∉ results) ∧
        (now ≤ s0 → (⟨eid, roomOf page eid, tl, st0⟩ : Record) ∈ results))) := by
  rw [fetch_single_eid, hlane] at hok
  dsimp only at hok
  constructor
  · intro r hr
    obtain ⟨h1, h2, h3, _⟩ := eventsLoop_sound hok r hr
    exact ⟨h1, h2, h3⟩
  · intro ev hev t tl st0 rn s0 e0 ht htne hpt hpr
    constructor
    · intro hlt hmem
      obtain ⟨_, _, ⟨st, en, hp, hnow⟩, _⟩ := eventsLoop_sound hok _ hmem
      dsimp only at hp
      rw [hpr] at hp
      injection hp with hp
      injection hp with hp1 hp2
      omega
    · intro hge
      exact eventsLoop_complete hok hev ht htne hpt hpr (by omega)

/-- C6 witness: a page with one past event (starts 13:00, the scrape runs at
minute 800 = 13:20) and one future event (starts 15:00): the past record is
absent from the output and the future record is present. -/
theorem fetch_single_eid_past_filter_witness :
    ((⟨"e1".data, "RoomY".data, "1:00pm".data, "Busy".data⟩ : Record) ∉
      ([⟨"e1".data, "RoomY".data, "3:00pm".data, "Open".data⟩] : List Record)) ∧
    ((⟨"e1".data, "RoomY".data, "3:00pm".data, "Open".data⟩ : Record) ∈
      ([⟨"e1".data, "RoomY".data, "3:00pm".data, "Open".data⟩] : List Record)) := by
  have h := @fetch_single_eid_past_filter
    ⟨fun _ => some [⟨some ("1:00pm - Busy".data)⟩, ⟨some ("3:00pm - Open".data)⟩],
     fun _ => some ("RoomY".data)⟩
    800 0 ("e1".data)
    [⟨some ("1:00pm - Busy".data)⟩, ⟨some ("3:00pm - Open".data)⟩]
    [⟨"e1".data, "RoomY".data, "3:00pm".data, "Open".data⟩]
    (by rfl) (by rfl)
  constructor
  · exact (h.2 ⟨some ("1:00pm - Busy".data)⟩ (List.mem_cons_self _ _)
      ("1:00pm - Busy".data) ("1:00pm".data) ("Busy".data) ("Unknown".data)
      780 840 rfl (by simp) rfl (by rfl)).1 (by omega)
  · exact (h.2 ⟨some ("3:00pm - Open".data)⟩
      (List.mem_cons_of_mem _ (List.mem_cons_self _ _))
      ("3:00pm - Open".data) ("3:00pm".data) ("Open".data) ("Unknown".data)
      900 960 rfl (by simp) rfl (by rfl)).2 (by omega)

/-- C7: the `/api/run_fetch` handler responds `success` with the batch record
count and overwrites the saved `record.json` exactly when the scrape completes
without exception; on any exception it responds `error` with the exception and
the previously saved data is left unchanged (a mid-batch failure makes
`fetch_all` return the error, discarding all partial results). -/
theorem run_fetch_contract (page : Page) (now today : Nat)
    (eids : List (List Char)) (saved : Option (List Record)) :
    (∃ data, fetch_all page now today eids = .ok data ∧
      run_fetch page now today eids saved = (.success data.length, some data)) ∨
    (∃ e, fetch_all page now today eids = .error e ∧
      run_fetch page now today eids saved = (.error e, saved)) := by
  rcases hf : fetch_all page now today eids with e | data
  · right
    refine ⟨e, rfl, ?_⟩
    rw [run_fetch, hf]
  · left
    refine ⟨data, rfl, ?_⟩
    rw [run_fetch, hf]

/-- C8: a resource whose schedule cell cannot be located yields an empty result
and the batch continues with the remaining resources unchanged (soft failure);
and inside a located cell, an event node whose title attribute is missing
(`None`) or empty is silently skipped by the loop. -/
theorem fetch_soft_failures {page : Page} {now today : Nat} {eid : List Char}
    (hnone : page.queryLane eid = none) :
    fetch_single_eid page now today eid = .ok [] ∧
    (∀ rest, fetch_all page now today (eid :: rest) = fetch_all page now today rest) ∧
    (∀ eid2 room evs ev, (ev.title = none ∨ ev.title = some ([] : List Char)) →
      eventsLoop eid2 room now today (ev :: evs) = eventsLoop eid2 room now today evs) := by
  have h1 : fetch_single_eid page now today eid = .ok [] := by
    rw [fetch_single_eid, hnone]
  refine ⟨h1, ?_, ?_⟩
  · intro rest
    rw [fetch_all, h1]
    dsimp only
    rcases hr : fetch_all page now today rest with e | ds <;> simp [hr]
  · intro eid2 room evs ev hti
    rcases hti with hti | hti
    · rw [eventsLoop, hti]
    · rw [eventsLoop, hti]
      dsimp only
      rw [if_pos rfl]

/-- C8 witness: a page with no lanes at all, and an event node with an absent
title. -/
theorem fetch_soft_failures_witness :
    fetch_single_eid ⟨fun _ => none, fun _ => none⟩ 7 3 "x".data = .ok [] ∧
    fetch_all ⟨fun _ => none, fun _ => none⟩ 7 3 ["x".data] =
      fetch_all ⟨fun _ => none, fun _ => none⟩ 7 3 [] ∧
    eventsLoop "x".data "R".data 7 3 [⟨none⟩] = eventsLoop "x".data "R".data 7 3 [] := by
  have h := @fetch_soft_failures ⟨fun _ => none, fun _ => none⟩ 7 3 ("x".data) rfl
  exact ⟨h.1, h.2.1 [], h.2.2 ("x".data) ("R".data) [] ⟨none⟩ (Or.inl rfl)⟩

/-- C10: the room name extracted by the title parser is never used in the
published output: every retained record's `Name` field equals the room name
text read from the resource's datagrid cell in the DOM (or "Unknown" when that
cell is absent), while the record's time and status come from `parse_title`,
whose third component (the title-derived room name) is discarded. -/
theorem record_name_from_datagrid {page : Page} {now today : Nat}
    {eid : List Char} {evs : List EventNode} {results : List Record}
    (hlane : page.queryLane eid = some evs)
    (hok : fetch_single_eid page now today eid = .ok results) :
    ∀ r ∈ results,
      r.Name = (match page.queryName eid with
                | some txt => txt
                | none => "Unknown".data) ∧
      ∃ ev ∈ evs, ∃ t rn, ev.title = some t ∧
        parse_title t = some (r.time, r.status, rn) := by
  rw [fetch_single_eid, hlane] at hok
  dsimp only at hok
  intro r hr
  obtain ⟨_, hname, _, ev, hev, t, ht, rn, hpt⟩ := eventsLoop_sound hok r hr
  exact ⟨hname, ev, hev, t, rn, ht, hpt⟩

/-- C10 witness: the title carries the room name "TitleRoom", but the record's
`Name` is the datagrid text "DOMRoom". -/
theorem record_name_from_datagrid_witness :
    (⟨"e2".data, "DOMRoom".data, "8:00am".data, "Open".data⟩ : Record).Name =
      (match (⟨fun _ => some [⟨some ("8:00am - TitleRoom - Open".data)⟩],
              fun _ => some ("DOMRoom".data)⟩ : Page).queryName "e2".data with
       | some txt => txt
       | none => "Unknown".data) ∧
    parse_title ("8:00am - TitleRoom - Open".data) =
      some ("8:00am".data, "Open".data, "TitleRoom".data) ∧
    "TitleRoom".data ≠ "DOMRoom".data := by
  have h := @record_name_from_datagrid
    ⟨fun _ => some [⟨some ("8:00am - TitleRoom - Open".data)⟩],
     fun _ => some ("DOMRoom".data)⟩
    0 0 ("e2".data)
    [⟨some ("8:00am - TitleRoom - Open".data)⟩]
    [⟨"e2".data, "DOMRoom".data, "8:00am".data, "Open".data⟩]
    (by rfl) (by rfl)
  exact ⟨(h _ (List.mem_cons_self _ _)).1, by rfl, by decide⟩

end UmichStudySpaces
